import Mathlib

/-!
Shallow embedding of django-gitstorage.

The view layer is translated from `src/gitstorage/views.py`. The model layer
(`models.py`), the path helper (`utils.py`) and the filemode constants
(`wrappers.py`) are not part of the provided sources — only their tests and
callers are — so those definitions are modelled from the specification
(sections 3, 4.1, 4.4 and 4.5) and cross-checked against the in-source tests
in `src/gitstorage/tests/test_models.py`.

Database tables are modelled as lists of rows in insertion (primary-key)
order. Python dictionaries are modelled as association lists with
overwrite-in-place insertion. Errors raised by a view are modelled as an
`Except` value, and the call to `find_object` is recorded as an event so that
ordering claims ("rejected before any resolution") can be stated.
-/

namespace Gitstorage

/-- Modelled from the spec: `utils.Path` (section 3/4.1) — an ordered sequence
of non-empty name segments; `name` is the last segment (empty for root) and
`parent_path` drops the last segment. -/
abbrev Path := List String

/-- Modelled from the spec: `Path.name`, the last segment or `""` for root. -/
def lastName (p : Path) : String := p.getLastD ""

/-- Modelled from the spec: `Path.parent_path`, the path with the last segment
removed. -/
def parentPath (p : Path) : Path := p.dropLast

/-- Modelled from the spec: `Path.resolve(name)` appends one segment. -/
def resolve (p : Path) (n : String) : Path := p ++ [n]

/-- A user as seen by the permission engine (spec section 6): an opaque
reference plus the `is_superuser` flag. An anonymous user has no stored
reference (`ref = none`), hence never appears in `user`-keyed permission
rows. -/
structure User where
  ref : Option Nat
  is_superuser : Bool
deriving DecidableEq

/-- Django's `AnonymousUser`: no reference, not a superuser. -/
def anonymousUser : User := ⟨none, false⟩

/-- Modelled from the spec: `models.TreePermission` (section 3) — one row per
`(parent_path, name, user)` triple, granting `user` access to the single path
`parent_path/name`. -/
structure TreePermission where
  parent_path : Path
  name : String
  user : Nat
deriving DecidableEq

/-- A row restricts path `p` when its `(parent_path, name)` equals exactly
`p`'s own `(parent_path, name)`. -/
def matchesPath (r : TreePermission) (p : Path) : Bool :=
  r.parent_path == parentPath p && r.name == lastName p

/-- Modelled from the spec: `TreePermissionManager.is_allowed` (section 4.5):
superuser → true unconditionally; otherwise query rows matching the path's
exact `(parent_path, name)`; if none exist → true (open by default); else true
iff a row names this user. Consistent with `test_is_allowed`. -/
def is_allowed (t : List TreePermission) (u : User) (p : Path) : Bool :=
  if u.is_superuser then true
  else
    let rows := t.filter (fun r => matchesPath r p)
    if rows.isEmpty then true
    else rows.any (fun r => u.ref == some r.user)

/-- Modelled from the spec: `TreePermissionManager.allowed_names`
(section 4.5): `none` for superusers; otherwise find all rows whose
`parent_path` equals the given path; if none exist return `none`, else return
the names among those rows for which the user appears. Consistent with
`test_allowed_names`. -/
def allowed_names (t : List TreePermission) (u : User) (parent : Path) :
    Option (List String) :=
  if u.is_superuser then none
  else
    let rows := t.filter (fun r => r.parent_path == parent)
    if rows.isEmpty then none
    else some ((rows.filter (fun r => u.ref == some r.user)).map TreePermission.name)

/-- Modelled from the spec: `TreePermissionManager.current_permissions`
(section 4.5): the rows for exactly that path, in insertion order. Consistent
with `test_current_permissions`. -/
def current_permissions (t : List TreePermission) (p : Path) : List TreePermission :=
  t.filter (fun r => matchesPath r p)

/-- The row inserted by a grant for user `u` on path `p`. -/
def mkRow (p : Path) (u : Nat) : TreePermission :=
  ⟨parentPath p, lastName p, u⟩

/-- Whether the table already holds the grant row for `(p, u)`. -/
def rowPresent (t : List TreePermission) (p : Path) (u : Nat) : Bool :=
  t.any (fun r => matchesPath r p && r.user == u)

/-- Modelled from the spec: `TreePermissionManager.add` (section 4.5): for
each user insert `(parent_path, name, user)` unless already present
(idempotent, no duplicate-row error). Consistent with `test_add`. -/
def add (t : List TreePermission) (users : List Nat) (p : Path) :
    List TreePermission :=
  users.foldl (fun acc u =>
    if rowPresent acc p u then acc else acc ++ [mkRow p u]) t

/-- Modelled from the spec: `TreePermissionManager.remove` (section 4.5):
delete matching rows for each user; removing a non-existent grant is a no-op.
Consistent with `test_remove`. -/
def remove (t : List TreePermission) (users : List Nat) (p : Path) :
    List TreePermission :=
  t.filter (fun r => !(matchesPath r p && users.contains r.user))

/-- Modelled from the spec: `models.BlobMetadata` (section 3) — keyed by blob
`oid` (the content hash), carrying the derived mimetype. -/
structure BlobMetadata where
  oid : String
  mimetype : String
deriving DecidableEq

/-- Modelled from the spec: the sentinel mimetype used for unknown filename
extensions (section 4.4). -/
def UNKNOWN_MIMETYPE : String := "application/octet-stream"

/-- Modelled from the spec: `BlobMetadataManager.create_from_name`
(section 4.4): look up `oid`; if absent derive the mimetype from the display
name's extension via the injected resolver (sentinel fallback) and persist a
new row; return the existing row unchanged if one is already present for that
`oid`. Returns the row together with the updated table. -/
def create_from_name (resolve_mime : String → Option String)
    (t : List BlobMetadata) (name : String) (oid : String) :
    BlobMetadata × List BlobMetadata :=
  match t.find? (fun m => m.oid == oid) with
  | some m => (m, t)
  | none =>
    let m : BlobMetadata := ⟨oid, (resolve_mime name).getD UNKNOWN_MIMETYPE⟩
    (m, t ++ [m])

/-- Git object kind, the closed variant over `pygit2.GIT_OBJ_BLOB` /
`GIT_OBJ_TREE`. -/
inductive ObjType
  | blob
  | tree
deriving DecidableEq

/-- Tree-entry filemodes: a sub-tree plus the blob-kind variants. -/
inductive Filemode
  | tree
  | blob
  | blobExecutable
  | link
deriving DecidableEq

/-- Modelled from the spec: `wrappers.GIT_FILEMODE_BLOB_KINDS` — symlink and
executable filemodes normalize to blob-kind (sections 3 and 4.2). -/
def GIT_FILEMODE_BLOB_KINDS : List Filemode :=
  [Filemode.blob, Filemode.blobExecutable, Filemode.link]

/-- One entry of a tree object: `{name, oid (hex), filemode}`. -/
structure Entry where
  name : String
  oid : String
  filemode : Filemode
deriving DecidableEq

/-- A resolved Git object as the views see it: its type and its oid. -/
structure FsObject where
  type : ObjType
  oid : String
deriving DecidableEq

/-- One item of the `directories` context list built by
`ObjectViewMixin.filter_directories`; its metadata is the synthesized
`TreeMetadata(oid)`. -/
structure DirItem where
  name : String
  path : Path
  oid : String
deriving DecidableEq

/-- One item of the `files` context list built by
`TreeViewMixin.filter_files`. -/
structure FileItem where
  name : String
  path : Path
  metadata : BlobMetadata
deriving DecidableEq

/-- Python's `name[0] == c` test: true when the string is non-empty and its
first character is `c` (`dispatch` guards the empty name explicitly, and tree
entry names are non-empty). -/
def firstCharIs (c : Char) (s : String) : Bool :=
  match s.data with
  | [] => false
  | a :: _ => a == c

/-- Lexicographic comparison of character lists by code point, Python's
string ordering. -/
def charsLe : List Char → List Char → Bool
  | [], _ => true
  | _ :: _, [] => false
  | a :: as, b :: bs =>
    if a.toNat < b.toNat then true
    else if b.toNat < a.toNat then false
    else charsLe as bs

/-- Code-point lexicographic order on strings. -/
def strLe (a b : String) : Bool := charsLe a.data b.data

/-- Insert into a list sorted by the given string key, as used to model
Python's `sorted(..., key=operator.itemgetter('name'))`. -/
def insertSorted (key : α → String) (x : α) : List α → List α
  | [] => [x]
  | y :: ys => if strLe (key x) (key y) then x :: y :: ys else y :: insertSorted key x ys

/-- Sorting by a string key (insertion sort). -/
def sortByKey (key : α → String) (l : List α) : List α :=
  l.foldr (insertSorted key) []

/-- The loop body of `ObjectViewMixin.filter_directories` (views.py 74-85):
skip hidden names, keep tree-filemode entries whose name `allowed_names`
allows. -/
def dirStep (allowed : Option (List String)) (path : Path)
    (acc : List DirItem) (e : Entry) : List DirItem :=
  if firstCharIs '.' e.name then acc
  else if e.filemode == Filemode.tree then
    match allowed with
    | none => acc ++ [⟨e.name, resolve path e.name, e.oid⟩]
    | some ns =>
      if ns.contains e.name then acc ++ [⟨e.name, resolve path e.name, e.oid⟩]
      else acc
  else acc

/-- `ObjectViewMixin.filter_directories` (views.py 63-86): hide names starting
with `.`, keep tree-filemode entries whose name is allowed by
`allowed_names`, and sort the result by name. -/
def filter_directories (perms : List TreePermission) (u : User)
    (tree : List Entry) (path : Path) : List DirItem :=
  sortByKey DirItem.name
    (tree.foldl (dirStep (allowed_names perms u path) path) [])

/-- Python dict assignment `d[k] = v`: overwrite the value in place when the
key is present, append otherwise. -/
def dictInsert (d : List (String × String)) (k v : String) :
    List (String × String) :=
  if d.any (fun q => q.1 == k) then
    d.map (fun q => if q.1 == k then (k, v) else q)
  else d ++ [(k, v)]

/-- The loop body filling `oid_to_name` in `TreeViewMixin.filter_files`
(views.py 201-206): skip hidden names, key the blob-kind entries by oid. -/
def oidStep (d : List (String × String)) (e : Entry) : List (String × String) :=
  if firstCharIs '.' e.name then d
  else if GIT_FILEMODE_BLOB_KINDS.contains e.filemode then
    dictInsert d e.oid e.name
  else d

/-- The `oid_to_name` dictionary of `TreeViewMixin.filter_files`
(views.py 200-206). -/
def oidToName (tree : List Entry) : List (String × String) :=
  tree.foldl oidStep []

/-- The number of dictionary entries under a given key; at most one in any
real Python dict. -/
def countKey (d : List (String × String)) (k : String) : Nat :=
  (d.filter (fun q => q.1 == k)).length

/-- The metadata-attachment loop of `filter_files` (views.py 208-219): each
`(oid, name)` pair is joined with its `BlobMetadata` row; a missing row is the
Python `KeyError` on `metadata[oid]`, modelled as `none`. -/
def lookupAll (meta : List BlobMetadata) (path : Path) :
    List (String × String) → Option (List FileItem)
  | [] => some []
  | (oid, name) :: rest =>
    match meta.find? (fun m => m.oid == oid) with
    | none => none
    | some m =>
      (lookupAll meta path rest).map (fun fs => ⟨name, resolve path name, m⟩ :: fs)

/-- `TreeViewMixin.filter_files` (views.py 198-220): build `oid_to_name`,
attach metadata, sort by name. -/
def filter_files (meta : List BlobMetadata) (tree : List Entry) (path : Path) :
    Option (List FileItem) :=
  (lookupAll meta path (oidToName tree)).map (sortByKey FileItem.name)

/-- The directory-listing part of the context built by
`TreeViewMixin.get_context_data` (views.py 222-226). -/
structure Listing where
  directories : List DirItem
  files : Option (List FileItem)
deriving DecidableEq

/-- `TreeViewMixin.get_context_data`: `directories` from `filter_directories`
(which consults the requesting user), `files` from `filter_files` (which does
not). -/
def tree_context (perms : List TreePermission) (meta : List BlobMetadata)
    (u : User) (tree : List Entry) (path : Path) : Listing :=
  ⟨filter_directories perms u tree path, filter_files meta tree path⟩

/-- The errors a view can raise: `Http404`, `PermissionDenied`, and Django's
`DoesNotExist` escaping from `load_metadata`. -/
inductive Err
  | http404
  | permissionDenied
  | doesNotExist
deriving DecidableEq

/-- Observable side effects of the request pipeline; we record each call to
`storage.repository.find_object`. -/
inductive Event
  | findObjectCalled
deriving DecidableEq

/-- `ObjectViewMixin.dispatch` (views.py 117-144), parameterised by the
subclass data (`allowed_types`, `check_permissions`): reject hidden names
(`PermissionDenied`), resolve the object unless one was passed in
(`Http404` on `KeyError`), then `check_object_type` (`Http404` on a type not
in `allowed_types`), `load_metadata` (blob metadata must exist), and
`check_permissions`. The first component records whether `find_object` was
called. -/
def dispatch (findObject : Path → Option FsObject)
    (allowed_types : List ObjType)
    (check_permissions : Path → FsObject → Bool)
    (meta : List BlobMetadata)
    (path : Path) (gitObj : Option FsObject) :
    List Event × Except Err Unit :=
  if firstCharIs '.' (lastName path) then ([], .error .permissionDenied)
  else
    let resolved : List Event × Except Err FsObject :=
      match gitObj with
      | some o => ([], .ok o)
      | none =>
        match findObject path with
        | none => ([Event.findObjectCalled], .error .http404)
        | some o => ([Event.findObjectCalled], .ok o)
    match resolved with
    | (evs, .error e) => (evs, .error e)
    | (evs, .ok o) =>
      if !allowed_types.contains o.type then (evs, .error .http404)
      else if o.type == ObjType.blob
          && (meta.find? (fun m => m.oid == o.oid)).isNone then
        (evs, .error .doesNotExist)
      else if check_permissions path o then (evs, .ok ())
      else (evs, .error .permissionDenied)

/-- The data of a configured view class: its `allowed_types` and its
`check_permissions`. -/
structure ViewClass where
  allowed_types : List ObjType
  check_permissions : Path → FsObject → Bool

/-- The `view` closure of `RepositoryView.as_view` (views.py 314-341): reject
`;`-prefixed names (`Http404`), call `find_object` (`Http404` on failure),
look up the view class for the object's type (`PermissionDenied` on a type
with no configured view), then run that view's `dispatch` with the already
resolved object. The first component records every `find_object` call. -/
def as_view (findObject : Path → Option FsObject)
    (type_to_view_class : ObjType → Option ViewClass)
    (meta : List BlobMetadata) (path : Path) :
    List Event × Except Err Unit :=
  if firstCharIs ';' (lastName path) then ([], .error .http404)
  else
    match findObject path with
    | none => ([Event.findObjectCalled], .error .http404)
    | some o =>
      match type_to_view_class o.type with
      | none => ([Event.findObjectCalled], .error .permissionDenied)
      | some vc =>
        let r := dispatch findObject vc.allowed_types vc.check_permissions
          meta path (some o)
        (Event.findObjectCalled :: r.1, r.2)

/-! ### Helper lemmas -/

theorem insertSorted_perm (key : α → String) (x : α) (l : List α) :
    (insertSorted key x l).Perm (x :: l) := by
  induction l with
  | nil => exact List.Perm.refl _
  | cons y ys ih =>
    unfold insertSorted
    by_cases h : strLe (key x) (key y) = true
    · simp [h]
    · rw [if_neg h]
      exact (ih.cons y).trans (List.Perm.swap x y ys)

theorem sortByKey_perm (key : α → String) (l : List α) :
    (sortByKey key l).Perm l := by
  induction l with
  | nil => exact List.Perm.refl _
  | cons y ys ih =>
    have : sortByKey key (y :: ys) = insertSorted key y (sortByKey key ys) := rfl
    rw [this]
    exact (insertSorted_perm key y _).trans (ih.cons y)

theorem mem_sortByKey {key : α → String} {l : List α} {a : α} :
    a ∈ sortByKey key l ↔ a ∈ l :=
  (sortByKey_perm key l).mem_iff

theorem foldl_preserve {α β : Type} (step : List β → α → List β) (P : β → Prop)
    (hstep : ∀ acc a, (∀ x ∈ acc, P x) → ∀ d ∈ step acc a, P d) :
    ∀ (l : List α) (acc : List β), (∀ x ∈ acc, P x) → ∀ d ∈ l.foldl step acc, P d := by
  intro l
  induction l with
  | nil => intro acc hacc d hd; exact hacc d hd
  | cons a l ih =>
    intro acc hacc d hd
    exact ih (step acc a) (hstep acc a hacc) d hd

theorem matchesPath_mkRow (p : Path) (u : Nat) : matchesPath (mkRow p u) p = true := by
  simp [matchesPath, mkRow]

theorem rowPresent_append (t s : List TreePermission) (p : Path) (u : Nat) :
    rowPresent (t ++ s) p u = (rowPresent t p u || rowPresent s p u) := by
  simp [rowPresent, List.any_append]

theorem rowPresent_single (p : Path) (u v : Nat) :
    rowPresent [mkRow p u] p v = (u == v) := by
  unfold rowPresent
  simp only [List.any_cons, List.any_nil, Bool.or_false]
  rw [matchesPath_mkRow]
  simp [mkRow]

theorem add_cons (t : List TreePermission) (u : Nat) (us : List Nat) (p : Path) :
    add t (u :: us) p =
      add (if rowPresent t p u then t else t ++ [mkRow p u]) us p := by
  unfold add
  rw [List.foldl_cons]

theorem add_eq_append (p : Path) : ∀ (users : List Nat) (t : List TreePermission),
    (∀ u ∈ users, rowPresent t p u = false) → users.Nodup →
    add t users p = t ++ users.map (mkRow p) := by
  intro users
  induction users with
  | nil =>
    intro t _ _
    simp [add]
  | cons u us ih =>
    intro t h hnd
    rw [add_cons]
    have hu : rowPresent t p u = false := h u (List.mem_cons_self u us)
    rw [hu]
    simp only [Bool.false_eq_true, if_false]
    have hrest : ∀ v ∈ us, rowPresent (t ++ [mkRow p u]) p v = false := by
      intro v hv
      rw [rowPresent_append, rowPresent_single]
      have h1 : rowPresent t p v = false := h v (List.mem_cons_of_mem u hv)
      have h2 : (u == v) = false := by
        cases hbe : u == v with
        | false => rfl
        | true =>
          exact absurd (eq_of_beq hbe ▸ hv) (List.Nodup.not_mem hnd)
      rw [h1, h2]
      rfl
    rw [ih (t ++ [mkRow p u]) hrest (List.Nodup.of_cons hnd)]
    simp

theorem add_shape (p : Path) : ∀ (users : List Nat) (t : List TreePermission),
    ∃ s, add t users p = t ++ s ∧ ∀ r ∈ s, ∃ u, r = mkRow p u := by
  intro users
  induction users with
  | nil =>
    intro t
    exact ⟨[], by simp [add], by simp⟩
  | cons u us ih =>
    intro t
    rw [add_cons]
    cases hru : rowPresent t p u with
    | true =>
      simpa using ih t
    | false =>
      simp only [Bool.false_eq_true, if_false]
      obtain ⟨s, hs, hall⟩ := ih (t ++ [mkRow p u])
      refine ⟨mkRow p u :: s, by simp [hs], ?_⟩
      intro r hr
      rcases List.mem_cons.mp hr with h | h
      · exact ⟨u, h⟩
      · exact hall r h

theorem rowPresent_add_mono (t : List TreePermission) (users : List Nat)
    (p : Path) (u : Nat) (h : rowPresent t p u = true) :
    rowPresent (add t users p) p u = true := by
  obtain ⟨s, hs, _⟩ := add_shape p users t
  rw [hs, rowPresent_append, h]
  rfl

theorem rowPresent_add_of_mem (p : Path) :
    ∀ (users : List Nat) (t : List TreePermission) (u : Nat),
      u ∈ users → rowPresent (add t users p) p u = true := by
  intro users
  induction users with
  | nil =>
    intro t u hu
    exact absurd hu (List.not_mem_nil u)
  | cons v vs ih =>
    intro t u hu
    rw [add_cons]
    rcases List.mem_cons.mp hu with h | h
    · subst h
      cases hrv : rowPresent t p u with
      | true =>
        simp only [if_true]
        exact rowPresent_add_mono t vs p u hrv
      | false =>
        simp only [Bool.false_eq_true, if_false]
        apply rowPresent_add_mono
        rw [rowPresent_append, rowPresent_single]
        simp
    · cases hrv : rowPresent t p v with
      | true =>
        simp only [if_true]
        exact ih t u h
      | false =>
        simp only [Bool.false_eq_true, if_false]
        exact ih (t ++ [mkRow p v]) u h

theorem add_of_all_present (p : Path) :
    ∀ (users : List Nat) (t : List TreePermission),
      (∀ u ∈ users, rowPresent t p u = true) → add t users p = t := by
  intro users
  induction users with
  | nil =>
    intro t _
    simp [add]
  | cons u us ih =>
    intro t h
    rw [add_cons, h u (List.mem_cons_self u us)]
    simp only [if_true]
    exact ih t (fun v hv => h v (List.mem_cons_of_mem u hv))

/-! ### Claim theorems -/

/-- C5: for every tree readable by two users, the `files` part of the
directory-listing context is identical for both users: `filter_files` never
consults the requesting user or the permission table, only
`filter_directories` does. -/
theorem filter_files_user_independent (perms : List TreePermission)
    (meta : List BlobMetadata) (u1 u2 : User) (tree : List Entry) (path : Path)
    (h1 : is_allowed perms u1 path = true) (h2 : is_allowed perms u2 path = true) :
    (tree_context perms meta u1 tree path).files =
      (tree_context perms meta u2 tree path).files := rfl

/-- Witness for C5: two distinct non-superuser users both allowed on a
restricted path see the same files. -/
theorem filter_files_user_independent_witness :
    is_allowed [⟨["d"], "s", 1⟩] ⟨some 1, false⟩ ["d", "s"] = true ∧
    is_allowed [⟨["d"], "s", 1⟩] ⟨some 2, true⟩ ["d", "s"] = true ∧
    (tree_context [⟨["d"], "s", 1⟩] [⟨"o1", "text/plain"⟩] ⟨some 1, false⟩
        [⟨"f.txt", "o1", Filemode.blob⟩] ["d", "s"]).files =
      (tree_context [⟨["d"], "s", 1⟩] [⟨"o1", "text/plain"⟩] ⟨some 2, true⟩
        [⟨"f.txt", "o1", Filemode.blob⟩] ["d", "s"]).files :=
  ⟨by decide, by decide,
    filter_files_user_independent [⟨["d"], "s", 1⟩] [⟨"o1", "text/plain"⟩]
      ⟨some 1, false⟩ ⟨some 2, true⟩ [⟨"f.txt", "o1", Filemode.blob⟩] ["d", "s"]
      (by decide) (by decide)⟩

/-- C7: removing a grant that does not exist is a no-op: when no row of the
table matches `(parent_path p, lastName p, u)`, `remove` returns the table
unchanged (and, being a total function, raises nothing). -/
theorem remove_missing_noop (t : List TreePermission) (u : Nat) (p : Path)
    (h : ∀ r ∈ t, ¬(matchesPath r p = true ∧ r.user = u)) :
    remove t [u] p = t := by
  unfold remove
  refine List.filter_eq_self.mpr ?_
  intro r hr
  have hru := h r hr
  cases hm : matchesPath r p with
  | false => simp [hm]
  | true =>
    have hne : ¬ r.user = u := fun hu => hru ⟨hm, hu⟩
    have hbe : (r.user == u) = false := by
      cases hbu : r.user == u with
      | false => rfl
      | true => exact absurd (eq_of_beq hbu) hne
    simp [hm, List.contains, List.elem, hbe]

/-- Witness for C7: removing a user with no grant leaves the one-row table
unchanged. -/
theorem remove_missing_noop_witness :
    remove [⟨["my", "path"], "my_name", 1⟩] [2] ["my", "path", "my_name"] =
      [⟨["my", "path"], "my_name", 1⟩] :=
  remove_missing_noop [⟨["my", "path"], "my_name", 1⟩] 2
    ["my", "path", "my_name"] (by decide)

/-- C8: `create_from_name` keyed by oid: when a row for the oid already
exists it is returned unchanged with the table untouched (first-writer-wins);
when none exists, the new row's mimetype is derived from the display name by
the injected resolver (sentinel fallback) and the row is appended. -/
theorem create_from_name_spec (resolve_mime : String → Option String)
    (t : List BlobMetadata) (name oid : String) :
    (∀ m, t.find? (fun m' => m'.oid == oid) = some m →
      create_from_name resolve_mime t name oid = (m, t)) ∧
    (t.find? (fun m' => m'.oid == oid) = none →
      create_from_name resolve_mime t name oid =
        (⟨oid, (resolve_mime name).getD UNKNOWN_MIMETYPE⟩,
          t ++ [⟨oid, (resolve_mime name).getD UNKNOWN_MIMETYPE⟩])) := by
  constructor
  · intro m hm
    unfold create_from_name
    rw [hm]
  · intro hn
    unfold create_from_name
    rw [hn]

/-- Witness for C8: saving `my_pic.jpg` into an empty table derives
`image/jpeg` from the `.jpg` extension; saving identical content again under
`other_name.png` returns the stored row unchanged. -/
theorem create_from_name_spec_witness :
    create_from_name
        (fun n => if n.data.drop (n.data.length - 4) = ".jpg".data
          then some "image/jpeg" else none) []
        "my_pic.jpg" "c0d11342" =
      (⟨"c0d11342", "image/jpeg"⟩, [⟨"c0d11342", "image/jpeg"⟩]) ∧
    create_from_name
        (fun n => if n.data.drop (n.data.length - 4) = ".jpg".data
          then some "image/jpeg" else none)
        [⟨"c0d11342", "image/jpeg"⟩] "other_name.png" "c0d11342" =
      (⟨"c0d11342", "image/jpeg"⟩, [⟨"c0d11342", "image/jpeg"⟩]) :=
  ⟨by
    rw [(create_from_name_spec
      (fun n => if n.data.drop (n.data.length - 4) = ".jpg".data
        then some "image/jpeg" else none) []
      "my_pic.jpg" "c0d11342").2 (by decide)]
    decide,
  (create_from_name_spec
      (fun n => if n.data.drop (n.data.length - 4) = ".jpg".data
        then some "image/jpeg" else none)
      [⟨"c0d11342", "image/jpeg"⟩] "other_name.png" "c0d11342").1
    ⟨"c0d11342", "image/jpeg"⟩ (by decide)⟩

/-- C3, counterexample: the failure raised by `check_object_type` for an
object of the wrong kind is `Http404` — the very same error raised when the
path is missing — so no `TypeMismatchError` distinct from the not-found error
exists. Here a tree is resolved where only blobs are allowed. -/
theorem check_object_type_error_not_distinct :
    (dispatch (fun _ => none) [ObjType.blob] (fun _ _ => true) []
        ["a", "b"] (some ⟨ObjType.tree, "x"⟩)).2 = Except.error Err.http404 ∧
    (dispatch (fun _ => none) [ObjType.blob] (fun _ _ => true) []
        ["a", "b"] none).2 = Except.error Err.http404 :=
  ⟨rfl, rfl⟩

/-- C3, amended: resolving a path to an object whose type is not among the
view's `allowed_types` fails with `Http404`, the same error used for a
missing path, not with a distinct type-mismatch error. -/
theorem check_object_type_http404 (findObject : Path → Option FsObject)
    (allowed : List ObjType) (cp : Path → FsObject → Bool)
    (meta : List BlobMetadata) (p : Path) (o : FsObject)
    (hname : firstCharIs '.' (lastName p) = false)
    (hty : o.type ∉ allowed) :
    (dispatch findObject allowed cp meta p (some o)).2 = Except.error Err.http404 ∧
    (findObject p = none →
      (dispatch findObject allowed cp meta p none).2 = Except.error Err.http404) := by
  constructor
  · unfold dispatch
    simp [hname, hty]
  · intro hfo
    unfold dispatch
    simp [hname, hfo]

/-- Witness for C3 amended: a concrete tree resolved by a blob-only view. -/
theorem check_object_type_http404_witness :
    firstCharIs '.' (lastName ["a", "b"]) = false ∧
    ObjType.tree ∉ [ObjType.blob] ∧
    (dispatch (fun _ => none) [ObjType.blob] (fun _ _ => false) []
        ["a", "b"] (some ⟨ObjType.tree, "y"⟩)).2 = Except.error Err.http404 :=
  ⟨by decide, by decide,
    (check_object_type_http404 (fun _ => none) [ObjType.blob] (fun _ _ => false)
      [] ["a", "b"] ⟨ObjType.tree, "y"⟩ (by decide) (by decide)).1⟩

/-- C4, counterexample: for a path whose name starts with `.`, the
`RepositoryView.as_view` pipeline calls `find_object` (the event is recorded)
before the hidden-name check in `dispatch` rejects the request, contradicting
"find_object is never called for such a path". -/
theorem hidden_name_resolved_before_reject :
    firstCharIs '.' (lastName ["a", ".secret"]) = true ∧
    as_view (fun _ => some ⟨ObjType.tree, "x"⟩)
        (fun _ => some ⟨[ObjType.tree], fun _ _ => true⟩) [] ["a", ".secret"] =
      ([Event.findObjectCalled], Except.error Err.permissionDenied) :=
  ⟨rfl, rfl⟩

/-- C4, amended: `;`-prefixed names are rejected with `Http404` before any
resolution (no `find_object` event); `.`-prefixed names are rejected with
`PermissionDenied` only inside `dispatch`, after `as_view` has already called
`find_object`; when `dispatch` runs without a pre-resolved object its own
hidden-name check does precede its `find_object` call. -/
theorem boundary_checks_order (findObject : Path → Option FsObject)
    (tv : ObjType → Option ViewClass) (allowed : List ObjType)
    (cp : Path → FsObject → Bool) (meta : List BlobMetadata) (p : Path) :
    (firstCharIs ';' (lastName p) = true →
      as_view findObject tv meta p = ([], Except.error Err.http404)) ∧
    (firstCharIs '.' (lastName p) = true → firstCharIs ';' (lastName p) = false →
      ∀ o vc, findObject p = some o → tv o.type = some vc →
        as_view findObject tv meta p =
          ([Event.findObjectCalled], Except.error Err.permissionDenied)) ∧
    (firstCharIs '.' (lastName p) = true →
      dispatch findObject allowed cp meta p none =
        ([], Except.error Err.permissionDenied)) := by
  refine ⟨?_, ?_, ?_⟩
  · intro hsemi
    unfold as_view
    simp [hsemi]
  · intro hdot hsemi o vc hfo htv
    unfold as_view dispatch
    simp [hdot, hsemi, hfo, htv]
  · intro hdot
    unfold dispatch
    simp [hdot]

/-- Witness for C4 amended: concrete `;`-prefixed and `.`-prefixed requests,
through the `as_view` boundary and through a standalone `dispatch`. -/
theorem boundary_checks_order_witness :
    as_view (fun _ => some ⟨ObjType.tree, "x"⟩)
        (fun _ => some ⟨[ObjType.tree], fun _ _ => true⟩) [] [";cmd"] =
      ([], Except.error Err.http404) ∧
    as_view (fun _ => some ⟨ObjType.tree, "x"⟩)
        (fun _ => some ⟨[ObjType.tree], fun _ _ => true⟩) [] ["a", ".secret"] =
      ([Event.findObjectCalled], Except.error Err.permissionDenied) ∧
    dispatch (fun _ => some ⟨ObjType.tree, "x"⟩) [ObjType.tree]
        (fun _ _ => true) [] ["a", ".secret"] none =
      ([], Except.error Err.permissionDenied) :=
  ⟨(boundary_checks_order (fun _ => some ⟨ObjType.tree, "x"⟩)
      (fun _ => some ⟨[ObjType.tree], fun _ _ => true⟩) [ObjType.tree]
      (fun _ _ => true) [] [";cmd"]).1 (by decide),
    (boundary_checks_order (fun _ => some ⟨ObjType.tree, "x"⟩)
      (fun _ => some ⟨[ObjType.tree], fun _ _ => true⟩) [ObjType.tree]
      (fun _ _ => true) [] ["a", ".secret"]).2.1 (by decide) (by decide)
      ⟨ObjType.tree, "x"⟩ ⟨[ObjType.tree], fun _ _ => true⟩ rfl rfl,
    (boundary_checks_order (fun _ => some ⟨ObjType.tree, "x"⟩)
      (fun _ => some ⟨[ObjType.tree], fun _ _ => true⟩) [ObjType.tree]
      (fun _ _ => true) [] ["a", ".secret"]).2.2 (by decide)⟩

/-- C1: `is_allowed` returns true iff the user is a superuser, or no row
restricts the path's exact `(parent_path, name)`, or one of the restricting
rows names the user; and for the anonymous user (whose reference appears in
no row) it is true exactly when no restricting row exists. -/
theorem is_allowed_spec (t : List TreePermission) (u : User) (p : Path) :
    (is_allowed t u p = true ↔
      u.is_superuser = true ∨ (∀ r ∈ t, matchesPath r p = false) ∨
        ∃ r ∈ t, matchesPath r p = true ∧ u.ref = some r.user) ∧
    (is_allowed t anonymousUser p = true ↔ ∀ r ∈ t, matchesPath r p = false) := by
  have key : ∀ (v : User), v.is_superuser = false →
      (is_allowed t v p = true ↔
        (∀ r ∈ t, matchesPath r p = false) ∨
          ∃ r ∈ t, matchesPath r p = true ∧ v.ref = some r.user) := by
    intro v hs
    unfold is_allowed
    rw [hs]
    simp only [if_false, Bool.false_eq_true]
    by_cases he : (t.filter (fun r => matchesPath r p)).isEmpty = true
    · rw [if_pos he]
      rw [List.isEmpty_iff] at he
      rw [List.filter_eq_nil_iff] at he
      constructor
      · intro _
        exact Or.inl (fun r hr => by simpa using he r hr)
      · intro _
        rfl
    · rw [if_neg he]
      constructor
      · intro h
        obtain ⟨r, hrmem, hg⟩ := List.any_eq_true.mp h
        rw [List.mem_filter] at hrmem
        exact Or.inr ⟨r, hrmem.1, hrmem.2, by simpa using hg⟩
      · rintro (hall | ⟨r, hr, hm, hu⟩)
        · exfalso
          apply he
          rw [List.isEmpty_iff, List.filter_eq_nil_iff]
          intro r hr
          simp [hall r hr]
        · exact List.any_eq_true.mpr
            ⟨r, List.mem_filter.mpr ⟨hr, hm⟩, by simpa using hu⟩
  constructor
  · by_cases hs : u.is_superuser = true
    · constructor
      · intro _
        exact Or.inl hs
      · intro _
        unfold is_allowed
        rw [hs]
        rfl
    · rw [Bool.not_eq_true] at hs
      rw [key u hs, hs]
      simp
  · rw [key anonymousUser rfl]
    constructor
    · rintro (hall | ⟨r, _, _, hu⟩)
      · exact hall
      · exact absurd hu (by simp [anonymousUser])
    · exact Or.inl

/-- Witness for C1: the `test_is_allowed` scenario — one row granting user 1
on `my/path/my_name`; anonymous is denied, user 1 is allowed. -/
theorem is_allowed_spec_witness :
    (is_allowed [⟨["my", "path"], "my_name", 1⟩] ⟨some 1, false⟩
        ["my", "path", "my_name"] = true ↔
      (⟨some 1, false⟩ : User).is_superuser = true ∨
        (∀ r ∈ [(⟨["my", "path"], "my_name", 1⟩ : TreePermission)],
          matchesPath r ["my", "path", "my_name"] = false) ∨
        ∃ r ∈ [(⟨["my", "path"], "my_name", 1⟩ : TreePermission)],
          matchesPath r ["my", "path", "my_name"] = true ∧
            (⟨some 1, false⟩ : User).ref = some r.user) ∧
    (is_allowed [⟨["my", "path"], "my_name", 1⟩] anonymousUser
        ["my", "path", "my_name"] = true ↔
      ∀ r ∈ [(⟨["my", "path"], "my_name", 1⟩ : TreePermission)],
        matchesPath r ["my", "path", "my_name"] = false) :=
  is_allowed_spec [⟨["my", "path"], "my_name", 1⟩] ⟨some 1, false⟩
    ["my", "path", "my_name"]

/-- C2: `allowed_names` returns `none` for superusers and for a parent with
no restricting rows among its direct children; otherwise it returns the set
of child names among those rows for which the user appears — the empty set
for the anonymous user. -/
theorem allowed_names_spec (t : List TreePermission) (u : User) (parent : Path) :
    (u.is_superuser = true → allowed_names t u parent = none) ∧
    ((∀ r ∈ t, r.parent_path ≠ parent) → allowed_names t u parent = none) ∧
    (u.is_superuser = false → ∀ r0 ∈ t, r0.parent_path = parent →
      ∃ ns, allowed_names t u parent = some ns ∧
        ∀ n, n ∈ ns ↔ ∃ r ∈ t, r.parent_path = parent ∧
          u.ref = some r.user ∧ r.name = n) ∧
    (u.ref = none → u.is_superuser = false → ∀ r0 ∈ t, r0.parent_path = parent →
      allowed_names t u parent = some []) := by
  have hfilter_nil : (∀ r ∈ t, r.parent_path ≠ parent) →
      (t.filter (fun r => r.parent_path == parent)) = [] := by
    intro h
    rw [List.filter_eq_nil_iff]
    intro r hr
    simp [h r hr]
  have hfilter_mem : ∀ r0 ∈ t, r0.parent_path = parent →
      (t.filter (fun r => r.parent_path == parent)).isEmpty = false := by
    intro r0 hr0 hp0
    have : r0 ∈ t.filter (fun r => r.parent_path == parent) :=
      List.mem_filter.mpr ⟨hr0, by simp [hp0]⟩
    cases hie : (t.filter (fun r => r.parent_path == parent)).isEmpty with
    | false => rfl
    | true =>
      rw [List.isEmpty_iff] at hie
      rw [hie] at this
      exact absurd this (List.not_mem_nil r0)
  refine ⟨?_, ?_, ?_, ?_⟩
  · intro hs
    unfold allowed_names
    rw [hs]
    rfl
  · intro h
    unfold allowed_names
    by_cases hs : u.is_superuser = true
    · rw [hs]; rfl
    · rw [Bool.not_eq_true] at hs
      rw [hs]
      simp only [if_false, Bool.false_eq_true, hfilter_nil h]
      rfl
  · intro hs r0 hr0 hp0
    unfold allowed_names
    rw [hs]
    simp only [if_false, Bool.false_eq_true, hfilter_mem r0 hr0 hp0]
    refine ⟨_, rfl, ?_⟩
    intro n
    constructor
    · intro hn
      obtain ⟨r, hrmem, hname⟩ := List.mem_map.mp hn
      rw [List.mem_filter] at hrmem
      obtain ⟨hrmem1, hg⟩ := hrmem
      rw [List.mem_filter] at hrmem1
      exact ⟨r, hrmem1.1, by simpa using hrmem1.2, by simpa using hg, hname⟩
    · rintro ⟨r, hr, hp, hu, hn⟩
      exact List.mem_map.mpr
        ⟨r, List.mem_filter.mpr
          ⟨List.mem_filter.mpr ⟨hr, by simp [hp]⟩, by simp [hu]⟩, hn⟩
  · intro href hs r0 hr0 hp0
    unfold allowed_names
    rw [hs]
    simp only [if_false, Bool.false_eq_true, hfilter_mem r0 hr0 hp0]
    have : ((t.filter (fun r => r.parent_path == parent)).filter
        (fun r => u.ref == some r.user)) = [] := by
      rw [List.filter_eq_nil_iff]
      intro r _
      simp [href]
    rw [this]
    rfl

/-- Witness for C2: the `test_allowed_names` scenario — one row for child
`my_name` of `my/path`; the granted user sees `my_name`, anonymous sees the
empty set, a superuser sees `none`. -/
theorem allowed_names_spec_witness :
    allowed_names [⟨["my", "path"], "my_name", 1⟩] ⟨some 9, true⟩
        ["my", "path"] = none ∧
    allowed_names [⟨["my", "path"], "my_name", 1⟩] anonymousUser
        ["my", "path"] = some [] ∧
    ∃ ns, allowed_names [⟨["my", "path"], "my_name", 1⟩] ⟨some 1, false⟩
        ["my", "path"] = some ns ∧
      ∀ n, n ∈ ns ↔ ∃ r ∈ [(⟨["my", "path"], "my_name", 1⟩ : TreePermission)],
        r.parent_path = ["my", "path"] ∧ (some 1 : Option Nat) = some r.user ∧
          r.name = n :=
  ⟨(allowed_names_spec [⟨["my", "path"], "my_name", 1⟩] ⟨some 9, true⟩
      ["my", "path"]).1 rfl,
    (allowed_names_spec [⟨["my", "path"], "my_name", 1⟩] anonymousUser
      ["my", "path"]).2.2.2 rfl rfl ⟨["my", "path"], "my_name", 1⟩
      (by decide) rfl,
    (allowed_names_spec [⟨["my", "path"], "my_name", 1⟩] ⟨some 1, false⟩
      ["my", "path"]).2.2.1 rfl ⟨["my", "path"], "my_name", 1⟩
      (by decide) rfl⟩

/-- C6: granting `users` on path `p` over a table with no prior rows for `p`
makes `current_permissions p` exactly one row per given user, in insertion
order; rows for any other `(parent_path, name)` key — ancestors and
descendants included — are untouched; and repeating the same `add` changes
nothing (no duplicate rows, no error). -/
theorem add_current_permissions_idempotent (t : List TreePermission)
    (users : List Nat) (p : Path)
    (ht : ∀ r ∈ t, matchesPath r p = false) (hnd : users.Nodup) :
    current_permissions (add t users p) p = users.map (mkRow p) ∧
    (∀ q : Path,
      (parentPath q ≠ parentPath p ∨ lastName q ≠ lastName p) →
        current_permissions (add t users p) q = current_permissions t q) ∧
    add (add t users p) users p = add t users p := by
  have hpres : ∀ u ∈ users, rowPresent t p u = false := by
    intro u _
    unfold rowPresent
    rw [List.any_eq_false]
    intro r hr
    simp [ht r hr]
  refine ⟨?_, ?_, ?_⟩
  · rw [add_eq_append p users t hpres hnd]
    unfold current_permissions
    rw [List.filter_append]
    have h1 : t.filter (fun r => matchesPath r p) = [] := by
      rw [List.filter_eq_nil_iff]
      intro r hr
      simp [ht r hr]
    have h2 : (users.map (mkRow p)).filter (fun r => matchesPath r p) =
        users.map (mkRow p) := by
      rw [List.filter_eq_self]
      intro r hr
      obtain ⟨u, _, hru⟩ := List.mem_map.mp hr
      rw [← hru]
      exact matchesPath_mkRow p u
    rw [h1, h2]
    rfl
  · intro q hq
    obtain ⟨s, hs, hall⟩ := add_shape p users t
    rw [hs]
    unfold current_permissions
    rw [List.filter_append]
    have h3 : s.filter (fun r => matchesPath r q) = [] := by
      rw [List.filter_eq_nil_iff]
      intro r hr
      obtain ⟨u, hru⟩ := hall r hr
      subst hru
      simp only [matchesPath, mkRow, Bool.not_eq_true, Bool.and_eq_true,
        beq_iff_eq, not_and]
      rcases hq with h | h
      · intro hpp
        exact absurd hpp.symm h
      · intro _ hnn
        exact absurd hnn.symm h
    rw [h3]
    simp
  · exact add_of_all_present p users (add t users p)
      (fun u hu => rowPresent_add_of_mem p users t u hu)

/-- Witness for C6: granting users 1 and 2 on `my/path/my_name` over an empty
table yields exactly their two rows in order; a sibling path is unaffected;
the repeated grant is a no-op. -/
theorem add_current_permissions_idempotent_witness :
    current_permissions (add [] [1, 2] ["my", "path", "my_name"])
        ["my", "path", "my_name"] =
      [⟨["my", "path"], "my_name", 1⟩, ⟨["my", "path"], "my_name", 2⟩] ∧
    current_permissions (add [] [1, 2] ["my", "path", "my_name"])
        ["my", "path", "other"] = current_permissions [] ["my", "path", "other"] ∧
    add (add [] [1, 2] ["my", "path", "my_name"]) [1, 2]
        ["my", "path", "my_name"] =
      add [] [1, 2] ["my", "path", "my_name"] := by
  have h := add_current_permissions_idempotent [] [1, 2]
    ["my", "path", "my_name"] (by decide) (by decide)
  exact ⟨h.1, h.2.1 ["my", "path", "other"] (Or.inr (by decide)), h.2.2⟩

theorem mem_dirStep {allowed : Option (List String)} {path : Path}
    {acc : List DirItem} {e : Entry} {d : DirItem}
    (hd : d ∈ dirStep allowed path acc e) :
    d ∈ acc ∨ (firstCharIs '.' e.name = false ∧ d.name = e.name) := by
  unfold dirStep at hd
  by_cases hh : firstCharIs '.' e.name = true
  · rw [if_pos hh] at hd
    exact Or.inl hd
  · rw [Bool.not_eq_true] at hh
    rw [hh] at hd
    simp only [Bool.false_eq_true, if_false] at hd
    by_cases hf : (e.filemode == Filemode.tree) = true
    · rw [if_pos hf] at hd
      cases allowed with
      | none =>
        dsimp only at hd
        rcases List.mem_append.mp hd with h | h
        · exact Or.inl h
        · rw [List.mem_singleton] at h
          exact Or.inr ⟨hh, by rw [h]⟩
      | some ns =>
        dsimp only at hd
        by_cases hc : ns.contains e.name = true
        · rw [if_pos hc] at hd
          rcases List.mem_append.mp hd with h | h
          · exact Or.inl h
          · rw [List.mem_singleton] at h
            exact Or.inr ⟨hh, by rw [h]⟩
        · rw [if_neg hc] at hd
          exact Or.inl hd
    · rw [if_neg hf] at hd
      exact Or.inl hd

theorem mem_dictInsert {d : List (String × String)} {k v : String}
    {q : String × String} (hq : q ∈ dictInsert d k v) : q ∈ d ∨ q = (k, v) := by
  unfold dictInsert at hq
  by_cases ha : (d.any fun q' => q'.1 == k) = true
  · rw [if_pos ha] at hq
    obtain ⟨q', hq', hfq⟩ := List.mem_map.mp hq
    by_cases hk : (q'.1 == k) = true
    · rw [if_pos hk] at hfq
      exact Or.inr hfq.symm
    · rw [if_neg hk] at hfq
      exact Or.inl (hfq ▸ hq')
  · rw [if_neg ha] at hq
    rcases List.mem_append.mp hq with h | h
    · exact Or.inl h
    · exact Or.inr (List.mem_singleton.mp h)

theorem mem_oidStep {acc : List (String × String)} {e : Entry}
    {q : String × String} (hq : q ∈ oidStep acc e) :
    q ∈ acc ∨ (firstCharIs '.' e.name = false ∧ q.2 = e.name) := by
  unfold oidStep at hq
  by_cases hh : firstCharIs '.' e.name = true
  · rw [if_pos hh] at hq
    exact Or.inl hq
  · rw [Bool.not_eq_true] at hh
    rw [hh] at hq
    simp only [Bool.false_eq_true, if_false] at hq
    by_cases hf : GIT_FILEMODE_BLOB_KINDS.contains e.filemode = true
    · rw [if_pos hf] at hq
      rcases mem_dictInsert hq with h | h
      · exact Or.inl h
      · exact Or.inr ⟨hh, by rw [h]⟩
    · rw [if_neg hf] at hq
      exact Or.inl hq

theorem oidToName_names (tree : List Entry) :
    ∀ q ∈ oidToName tree, firstCharIs '.' q.2 = false := by
  unfold oidToName
  refine foldl_preserve oidStep (fun q => firstCharIs '.' q.2 = false)
    ?_ tree [] (by simp)
  intro acc e hacc q hq
  rcases mem_oidStep hq with h | ⟨hh, hname⟩
  · exact hacc q h
  · rw [hname]
    exact hh

theorem lookupAll_names (meta : List BlobMetadata) (path : Path) :
    ∀ {d : List (String × String)} {fs : List FileItem},
      lookupAll meta path d = some fs → ∀ f ∈ fs, ∃ q ∈ d, f.name = q.2 := by
  intro d
  induction d with
  | nil =>
    intro fs h f hf
    unfold lookupAll at h
    rw [← Option.some_inj.mp h] at hf
    exact absurd hf (List.not_mem_nil f)
  | cons q rest ih =>
    intro fs h f hf
    obtain ⟨oid, name⟩ := q
    unfold lookupAll at h
    cases hfind : meta.find? (fun m => m.oid == oid) with
    | none =>
      rw [hfind] at h
      exact absurd h (by simp)
    | some m =>
      rw [hfind] at h
      obtain ⟨fs', hrest, hcons⟩ := Option.map_eq_some'.mp h
      rw [← hcons] at hf
      rcases List.mem_cons.mp hf with hhead | htail
      · refine ⟨(oid, name), List.mem_cons_self _ _, ?_⟩
        rw [hhead]
      · obtain ⟨q', hq', hfq'⟩ := ih hrest f htail
        exact ⟨q', List.mem_cons_of_mem _ hq', hfq'⟩

/-- C9: a tree entry whose name's first character is `.` never appears in the
listing output: every name in `filter_directories` and every name in
`filter_files` has a first character other than `.`, for every user and
permission table. -/
theorem hidden_entries_excluded (perms : List TreePermission) (u : User)
    (meta : List BlobMetadata) (tree : List Entry) (path : Path) :
    (∀ d ∈ filter_directories perms u tree path,
      firstCharIs '.' d.name = false) ∧
    (∀ fs, filter_files meta tree path = some fs →
      ∀ f ∈ fs, firstCharIs '.' f.name = false) := by
  constructor
  · intro d hd
    unfold filter_directories at hd
    rw [mem_sortByKey] at hd
    revert hd
    revert d
    refine foldl_preserve (dirStep (allowed_names perms u path) path)
      (fun d => firstCharIs '.' d.name = false) ?_ tree [] (by simp)
    intro acc e hacc d hd
    rcases mem_dirStep hd with h | ⟨hh, hname⟩
    · exact hacc d h
    · rw [hname]
      exact hh
  · intro fs hfs f hf
    unfold filter_files at hfs
    obtain ⟨fs0, h0, hsort⟩ := Option.map_eq_some'.mp hfs
    rw [← hsort] at hf
    rw [mem_sortByKey] at hf
    obtain ⟨q, hq, hfq⟩ := lookupAll_names meta path h0 f hf
    rw [hfq]
    exact oidToName_names tree q hq

/-- Witness for C9: a tree holding a hidden directory, a hidden file and
visible ones; the listed names are `sub` and `f.txt`, neither hidden. -/
theorem hidden_entries_excluded_witness :
    filter_directories [] ⟨some 1, false⟩
        [⟨".git", "o1", Filemode.tree⟩, ⟨"sub", "o2", Filemode.tree⟩,
          ⟨".hide.txt", "o3", Filemode.blob⟩, ⟨"f.txt", "o4", Filemode.blob⟩]
        [] = [⟨"sub", ["sub"], "o2"⟩] ∧
    firstCharIs '.' "sub" = false ∧
    firstCharIs '.' "f.txt" = false :=
  ⟨by decide,
    (hidden_entries_excluded [] ⟨some 1, false⟩ [⟨"o4", "text/plain"⟩]
        [⟨".git", "o1", Filemode.tree⟩, ⟨"sub", "o2", Filemode.tree⟩,
          ⟨".hide.txt", "o3", Filemode.blob⟩, ⟨"f.txt", "o4", Filemode.blob⟩]
        []).1 ⟨"sub", ["sub"], "o2"⟩ (by decide),
    (hidden_entries_excluded [] ⟨some 1, false⟩ [⟨"o4", "text/plain"⟩]
        [⟨".git", "o1", Filemode.tree⟩, ⟨"sub", "o2", Filemode.tree⟩,
          ⟨".hide.txt", "o3", Filemode.blob⟩, ⟨"f.txt", "o4", Filemode.blob⟩]
        []).2 [⟨"f.txt", ["f.txt"], ⟨"o4", "text/plain"⟩⟩] (by decide)
      ⟨"f.txt", ["f.txt"], ⟨"o4", "text/plain"⟩⟩ (by decide)⟩

theorem countKey_map_overwrite (k v k' : String) :
    ∀ d : List (String × String),
      countKey (d.map (fun q => if q.1 == k then (k, v) else q)) k' =
        countKey d k' := by
  intro d
  induction d with
  | nil => rfl
  | cons q rest ih =>
    unfold countKey at ih ⊢
    rw [List.map_cons, List.filter_cons, List.filter_cons]
    have hfst : ((if q.1 == k then (k, v) else q).1 == k') = (q.1 == k') := by
      by_cases hqk : (q.1 == k) = true
      · rw [if_pos hqk]
        have hq1 : q.1 = k := eq_of_beq hqk
        rw [← hq1]
      · rw [if_neg hqk]
    rw [hfst]
    by_cases h' : (q.1 == k') = true
    · rw [if_pos h', if_pos h']
      rw [List.length_cons, List.length_cons, ih]
    · rw [if_neg h', if_neg h']
      exact ih

theorem countKey_eq_zero (d : List (String × String)) (k : String)
    (h : (d.any fun q => q.1 == k) = false) : countKey d k = 0 := by
  unfold countKey
  rw [List.any_eq_false] at h
  rw [List.filter_eq_nil_iff.mpr h]
  rfl

theorem countKey_append (d s : List (String × String)) (k : String) :
    countKey (d ++ s) k = countKey d k + countKey s k := by
  unfold countKey
  rw [List.filter_append, List.length_append]

theorem countKey_single (k v k' : String) :
    countKey [(k, v)] k' = if k = k' then 1 else 0 := by
  unfold countKey
  by_cases h : k = k'
  · subst h
    simp
  · simp [h]

theorem countKey_filter_pos (d : List (String × String)) (k : String)
    (h : (d.any fun q => q.1 == k) = true) : 1 ≤ countKey d k := by
  obtain ⟨q, hq, hk⟩ := List.any_eq_true.mp h
  exact List.length_pos_of_mem (List.mem_filter.mpr ⟨hq, hk⟩)

theorem countKey_dictInsert_le (d : List (String × String)) (k v k' : String)
    (h : countKey d k' ≤ 1) : countKey (dictInsert d k v) k' ≤ 1 := by
  unfold dictInsert
  by_cases ha : (d.any fun q => q.1 == k) = true
  · rw [if_pos ha, countKey_map_overwrite]
    exact h
  · rw [if_neg ha, countKey_append, countKey_single]
    rw [Bool.not_eq_true] at ha
    by_cases hk : k = k'
    · subst hk
      rw [countKey_eq_zero d k ha]
      simp
    · rw [if_neg hk]
      omega

theorem countKey_dictInsert_mono (d : List (String × String)) (k v k' : String) :
    countKey d k' ≤ countKey (dictInsert d k v) k' := by
  unfold dictInsert
  by_cases ha : (d.any fun q => q.1 == k) = true
  · rw [if_pos ha, countKey_map_overwrite]
  · rw [if_neg ha, countKey_append]
    omega

theorem countKey_dictInsert_self (d : List (String × String)) (k v : String) :
    1 ≤ countKey (dictInsert d k v) k := by
  unfold dictInsert
  by_cases ha : (d.any fun q => q.1 == k) = true
  · rw [if_pos ha, countKey_map_overwrite]
    exact countKey_filter_pos d k ha
  · rw [if_neg ha, countKey_append, countKey_single]
    simp

theorem countKey_oidStep_le (acc : List (String × String)) (e : Entry)
    (k : String) (h : countKey acc k ≤ 1) : countKey (oidStep acc e) k ≤ 1 := by
  unfold oidStep
  by_cases hh : firstCharIs '.' e.name = true
  · rw [if_pos hh]
    exact h
  · rw [if_neg hh]
    by_cases hf : GIT_FILEMODE_BLOB_KINDS.contains e.filemode = true
    · rw [if_pos hf]
      exact countKey_dictInsert_le acc e.oid e.name k h
    · rw [if_neg hf]
      exact h

theorem countKey_oidStep_mono (acc : List (String × String)) (e : Entry)
    (k : String) : countKey acc k ≤ countKey (oidStep acc e) k := by
  unfold oidStep
  by_cases hh : firstCharIs '.' e.name = true
  · rw [if_pos hh]
  · rw [if_neg hh]
    by_cases hf : GIT_FILEMODE_BLOB_KINDS.contains e.filemode = true
    · rw [if_pos hf]
      exact countKey_dictInsert_mono acc e.oid e.name k
    · rw [if_neg hf]

theorem countKey_foldl_le :
    ∀ (tree : List Entry) (acc : List (String × String)),
      (∀ k', countKey acc k' ≤ 1) → ∀ k, countKey (tree.foldl oidStep acc) k ≤ 1 := by
  intro tree
  induction tree with
  | nil =>
    intro acc hacc k
    exact hacc k
  | cons e rest ih =>
    intro acc hacc k
    exact ih (oidStep acc e) (fun k' => countKey_oidStep_le acc e k' (hacc k')) k

theorem countKey_oidToName_le (tree : List Entry) (k : String) :
    countKey (oidToName tree) k ≤ 1 :=
  countKey_foldl_le tree [] (fun _ => by simp [countKey]) k

theorem countKey_foldl_mono :
    ∀ (tree : List Entry) (acc : List (String × String)) (k : String),
      countKey acc k ≤ countKey (tree.foldl oidStep acc) k := by
  intro tree
  induction tree with
  | nil =>
    intro acc k
    exact Nat.le_refl _
  | cons e rest ih =>
    intro acc k
    exact Nat.le_trans (countKey_oidStep_mono acc e k) (ih (oidStep acc e) k)

theorem countKey_oidToName_pos :
    ∀ (tree : List Entry) (acc : List (String × String)) (k : String),
      (∃ e ∈ tree, firstCharIs '.' e.name = false ∧
        GIT_FILEMODE_BLOB_KINDS.contains e.filemode = true ∧ e.oid = k) →
      1 ≤ countKey (tree.foldl oidStep acc) k := by
  intro tree
  induction tree with
  | nil =>
    intro acc k hex
    obtain ⟨e, he, _⟩ := hex
    exact absurd he (List.not_mem_nil e)
  | cons e rest ih =>
    intro acc k hex
    obtain ⟨e', he', hh, hbk, hoid⟩ := hex
    rcases List.mem_cons.mp he' with heq | hmem
    · subst heq
      rw [List.foldl_cons]
      refine Nat.le_trans ?_ (countKey_foldl_mono rest (oidStep acc e') k)
      unfold oidStep
      rw [hh]
      simp only [Bool.false_eq_true, if_false]
      rw [if_pos hbk, ← hoid]
      exact countKey_dictInsert_self acc e'.oid e'.name
    · rw [List.foldl_cons]
      exact ih (oidStep acc e) k ⟨e', hmem, hh, hbk, hoid⟩

theorem lookupAll_filter_length (meta : List BlobMetadata) (path : Path)
    (k : String) :
    ∀ {d : List (String × String)} {fs : List FileItem},
      lookupAll meta path d = some fs →
      (fs.filter (fun f => f.metadata.oid == k)).length = countKey d k := by
  intro d
  induction d with
  | nil =>
    intro fs h
    unfold lookupAll at h
    rw [← Option.some_inj.mp h]
    rfl
  | cons q rest ih =>
    intro fs h
    obtain ⟨oid, name⟩ := q
    unfold lookupAll at h
    cases hfind : meta.find? (fun m => m.oid == oid) with
    | none =>
      rw [hfind] at h
      exact absurd h (by simp)
    | some m =>
      rw [hfind] at h
      obtain ⟨fs', hrest, hcons⟩ := Option.map_eq_some'.mp h
      rw [← hcons]
      have hbeq := List.find?_some hfind
      have hmoid : m.oid = oid := eq_of_beq hbeq
      unfold countKey
      rw [List.filter_cons, List.filter_cons]
      have hcond : (({ name := name, path := resolve path name, metadata := m :
          FileItem }).metadata.oid == k) = ((oid, name).1 == k) := by
        dsimp only
        rw [hmoid]
      rw [hcond]
      by_cases hk : ((oid, name).1 == k) = true
      · rw [if_pos hk, if_pos hk]
        rw [List.length_cons, List.length_cons]
        rw [ih hrest]
        rfl
      · rw [if_neg hk, if_neg hk]
        exact ih hrest

/-- C10: when a tree holds a non-hidden blob-kind entry with a given oid —
in particular when it holds two or more such entries with identical content —
the files listing contains exactly one entry for that oid: the listing is
keyed by content hash before names are attached, so all but one of the
identically-contented names are dropped. -/
theorem duplicate_oid_single_entry (meta : List BlobMetadata)
    (tree : List Entry) (path : Path) (oid : String) (fs : List FileItem)
    (hfs : filter_files meta tree path = some fs)
    (hex : ∃ e ∈ tree, firstCharIs '.' e.name = false ∧
      GIT_FILEMODE_BLOB_KINDS.contains e.filemode = true ∧ e.oid = oid) :
    (fs.filter (fun f => f.metadata.oid == oid)).length = 1 := by
  unfold filter_files at hfs
  obtain ⟨fs0, h0, hsort⟩ := Option.map_eq_some'.mp hfs
  rw [← hsort]
  have hperm := (sortByKey_perm FileItem.name fs0).filter
    (fun f => f.metadata.oid == oid)
  rw [hperm.length_eq]
  rw [lookupAll_filter_length meta path oid h0]
  exact Nat.le_antisymm (countKey_oidToName_le tree oid)
    (countKey_oidToName_pos tree [] oid hex)

/-- Witness for C10: a tree with two visible blob entries `a.txt` and `b.txt`
sharing one oid produces a files list with a single entry for that oid. -/
theorem duplicate_oid_single_entry_witness :
    filter_files [⟨"oidA", "text/plain"⟩]
        [⟨"a.txt", "oidA", Filemode.blob⟩, ⟨"b.txt", "oidA", Filemode.blob⟩]
        [] = some [⟨"b.txt", ["b.txt"], ⟨"oidA", "text/plain"⟩⟩] ∧
    (([⟨"b.txt", ["b.txt"], ⟨"oidA", "text/plain"⟩⟩] : List FileItem).filter
        (fun f => f.metadata.oid == "oidA")).length = 1 :=
  ⟨by decide,
    duplicate_oid_single_entry [⟨"oidA", "text/plain"⟩]
      [⟨"a.txt", "oidA", Filemode.blob⟩, ⟨"b.txt", "oidA", Filemode.blob⟩]
      [] "oidA" [⟨"b.txt", ["b.txt"], ⟨"oidA", "text/plain"⟩⟩]
      (by decide) ⟨⟨"a.txt", "oidA", Filemode.blob⟩, by decide, by decide,
        by decide, rfl⟩⟩

end Gitstorage
